import Mathlib

/-!
Verification of the Paperly frontend against its natural-language
specification.  The definitions below are shallow embeddings of the
TypeScript source: the analysis-status enum and progress maps from
`src/website/src/lib/api.ts` (which contains two versions of the module)
and the client utilities (`uploadAndAnalyzePaper`, `parseSummaryStream`),
the polling hook `useAnalysis`, the local-storage layer `AnalysisStorage`,
the block conversion `convertApiBlockToFrontendBlock`, the block grouping
`groupBlocks`, the quiz renderer `QuizBlockComponent`, the upload-modal
monitor `monitorAnalysis`, and the chat / summary stream consumers.
-/

set_option maxRecDepth 4000

/-- Analysis pipeline status, as in the ten-variant union type
`AnalysisStatus` of the current client module (`src/unnamed/part_004` and
the second version inside `src/website/src/lib/api.ts`). -/

inductive AnalysisStatus where
  | created
  | extracting_markdown
  | markdown_extracted
  | generating_metadata
  | metadata_generated
  | processing_into_blocks
  | blocks_processed
  | generating_quizzes
  | completed
  | errored
deriving DecidableEq, Repr, Fintype

/-- String literals of the first (legacy) `AnalysisStatus` union in
`src/website/src/lib/api.ts`, lines 27-35: eight alternatives. -/

def analysisStatusValuesLegacy : List String :=
  ["created", "extracting_markdown", "markdown_extracted",
   "generating_metadata", "metadata_generated", "processing_into_blocks",
   "completed", "errored"]

/-- String literals of the second `AnalysisStatus` union in
`src/website/src/lib/api.ts`, lines 245-255 (same as `src/unnamed/part_004`):
ten alternatives. -/

def analysisStatusValuesCurrent : List String :=
  ["created", "extracting_markdown", "markdown_extracted",
   "generating_metadata", "metadata_generated", "processing_into_blocks",
   "blocks_processed", "generating_quizzes", "completed", "errored"]

/-- The ten status names of the section 4.1 pipeline path of the spec. -/

def specStatusNames : List String :=
  ["created", "extracting_markdown", "markdown_extracted",
   "generating_metadata", "metadata_generated", "processing_into_blocks",
   "blocks_processed", "generating_quizzes", "completed", "errored"]

/-- Status serialization: the wire name of each status variant. -/

def AnalysisStatus.name : AnalysisStatus → String
  | .created => "created"
  | .extracting_markdown => "extracting_markdown"
  | .markdown_extracted => "markdown_extracted"
  | .generating_metadata => "generating_metadata"
  | .metadata_generated => "metadata_generated"
  | .processing_into_blocks => "processing_into_blocks"
  | .blocks_processed => "blocks_processed"
  | .generating_quizzes => "generating_quizzes"
  | .completed => "completed"
  | .errored => "errored"

/-- Result of the `refetchInterval` callback of `useAnalysis` in
`src/website/src/hooks/use-analysis.ts`: `none` models returning `false`
(stop polling), `some n` models returning the interval `n` in
milliseconds.  The callback reads `query.state.data?.status`; this models
the case where a status has been observed. -/

def refetchInterval (s : AnalysisStatus) : Option Nat :=
  if s = .completed || s = .errored then none else some 2000

/-- One decision of the polling loop of `uploadAndAnalyzePaper`
(`src/unnamed/part_004`): after the 2000 ms wait and the fetch, the loop
either finishes successfully (`completed`), throws (`errored`), or runs
another iteration whose next fetch happens after a further 2000 ms wait. -/

inductive PollAction where
  | stopSuccess
  | stopError
  | continueAfter (ms : Nat)
deriving DecidableEq, Repr

/-- Decision taken by the body of the `while (!analysisComplete)` loop of
`uploadAndAnalyzePaper` on an observed status. -/

def uploadPollDecision (s : AnalysisStatus) : PollAction :=
  if s = .completed then .stopSuccess
  else if s = .errored then .stopError
  else .continueAfter 2000

/-- Progress map of the current client (`src/unnamed/part_004` lines
321-332, the second version of `src/website/src/lib/api.ts`, and
`monitorAnalysis` in `src/unnamed/part_005`): ten entries. -/

def progressMap : AnalysisStatus → Nat
  | .created => 10
  | .extracting_markdown => 20
  | .markdown_extracted => 35
  | .generating_metadata => 50
  | .metadata_generated => 65
  | .processing_into_blocks => 75
  | .blocks_processed => 85
  | .generating_quizzes => 95
  | .completed => 100
  | .errored => 0

/-- Progress map of the legacy version of `src/website/src/lib/api.ts`
(lines 186-195): eight entries keyed by the legacy eight-variant status
union, so `blocks_processed` and `generating_quizzes` are absent
(`none`). -/

def progressMapLegacy : AnalysisStatus → Option Nat
  | .created => some 10
  | .extracting_markdown => some 25
  | .markdown_extracted => some 40
  | .generating_metadata => some 55
  | .metadata_generated => some 70
  | .processing_into_blocks => some 85
  | .blocks_processed => none
  | .generating_quizzes => none
  | .completed => some 100
  | .errored => some 0

/-- Lookup as performed at the use site `progressMap[analysis.status] || 0`
of the legacy module: a missing key yields `undefined`, which `|| 0` turns
into 0 (and a stored 0 also stays 0). -/

def progressLookupLegacy (s : AnalysisStatus) : Nat :=
  (progressMapLegacy s).getD 0

/-- Forward path of section 4.1, from `created` to `completed`; `errored`
is the terminal branch off the path. -/

def forwardPath : List AnalysisStatus :=
  [.created, .extracting_markdown, .markdown_extracted,
   .generating_metadata, .metadata_generated, .processing_into_blocks,
   .blocks_processed, .generating_quizzes, .completed]

/-- Position of a status on the forward path (`none` for `errored`). -/

def pathIdx (s : AnalysisStatus) : Option Nat :=
  forwardPath.findIdx? (fun t => t = s)

/-- Strict precedence on the section 4.1 forward path. -/

def StrictlyBefore (s₁ s₂ : AnalysisStatus) : Prop :=
  ∃ i j, pathIdx s₁ = some i ∧ pathIdx s₂ = some j ∧ i < j

instance (s₁ s₂ : AnalysisStatus) : Decidable (StrictlyBefore s₁ s₂) := by
  unfold StrictlyBefore
  cases h₁ : pathIdx s₁ <;> cases h₂ : pathIdx s₂
  case none.none | none.some | some.none =>
    exact .isFalse (by rintro ⟨i, j, hi, hj, _⟩; simp_all)
  case some.some i j =>
    exact if h : i < j then
      .isTrue ⟨i, j, rfl, rfl, h⟩
    else
      .isFalse (by rintro ⟨i', j', hi, hj, hlt⟩; simp_all; omega)

/-! Data for claims C3 and C4: quiz blocks, the analysis response record,
and the upload-modal monitor. -/

/-- Frontend quiz block, from the `QuizBlock` interface of
`src/website/src/data/types.ts` (base-block fields plus quiz payload). -/

structure QuizBlock where
  id : String
  paper_id : String
  index : Nat
  question : String
  options : List String
  correct_answer : Nat
  explanation : Option String
deriving DecidableEq, Repr

/-- JavaScript `a || b` on string-or-undefined operands: the left value is
kept unless it is `undefined` or the falsy empty string. -/

def jsOrString (a b : Option String) : Option String :=
  match a with
  | some s => if s = "" then b else some s
  | none => b

/-- The computation `block.options[correctAnswerIndex] || block.options[0]`
of `QuizBlockComponent` (`src/website/src/components/blocks/quiz-block.tsx`). -/

def correctAnswerText (b : QuizBlock) : Option String :=
  jsOrString b.options[b.correct_answer]? b.options[0]?

/-- True exactly when `correctAnswerText` takes its `|| block.options[0]`
fallback: the indexed option is `undefined` (out of range) or falsy (the
empty string). -/

def fallbackTaken (b : QuizBlock) : Bool :=
  match b.options[b.correct_answer]? with
  | none => true
  | some s => s = ""

/-- Modelled from the spec: the backend block-serving path is not among
the sources of this repository (only the frontend and prompt files are);
per the spec, "Quiz blocks satisfy `0 <= correct_answer < len(options)`
for every quiz block returned". -/

def ServedQuizInvariant (b : QuizBlock) : Prop :=
  b.correct_answer < b.options.length

instance (b : QuizBlock) : Decidable (ServedQuizInvariant b) := by
  unfold ServedQuizInvariant; infer_instance

/-- A quiz block whose correct option is the empty string: it satisfies
the serving invariant, yet the renderer's fallback fires. -/

def quizEmptyOptionBlock : QuizBlock :=
  { id := "q1", paper_id := "p1", index := 0,
    question := "Pick one", options := ["A", ""], correct_answer := 1,
    explanation := none }

/-- Client-side response type `GetAnalysisResponse` of
`src/unnamed/part_004` (lines 34-39): it has no `error_message` field. -/

structure GetAnalysisResponse where
  analysis_id : String
  status : AnalysisStatus
  file_key : String
  paper_id : Option String
deriving DecidableEq, Repr

/-- Modelled from the spec: the backend Analysis record is not among the
sources here; per section 3 and 4.3 of the spec it carries
`{status, file_key, paper_id?, error_message?}` with `error_message` set
only when the status is `errored`. -/

structure AnalysisRecord where
  id : String
  file_key : String
  status : AnalysisStatus
  paper_id : Option String
  error_message : Option String
deriving DecidableEq, Repr

/-- Modelled from the spec: what `getAnalysis` hands the client for a
backend record — the fields of the client's `GetAnalysisResponse` type,
which omits `error_message`. -/

def toGetAnalysisResponse (r : AnalysisRecord) : GetAnalysisResponse :=
  { analysis_id := r.id, status := r.status, file_key := r.file_key,
    paper_id := r.paper_id }

/-- The `updates : Partial<StoredAnalysis>` object built by one iteration
of `monitorAnalysis` in `src/unnamed/part_005` (lines 65-93). -/

structure MonitorUpdates where
  status : String
  analysisStatus : AnalysisStatus
  progress : Nat
  paperId : Option String
  errorMessage : Option String
deriving DecidableEq, Repr

/-- The update computation of `monitorAnalysis`: status mapping, progress
lookup `progressMap[analysis.status] || 0`, paper id copy, and — only for
`errored` — the constant message "Analysis failed". -/

def monitorUpdates (a : GetAnalysisResponse) : MonitorUpdates :=
  { status := if a.status = .completed then "ready"
              else if a.status = .errored then "error" else "analyzing",
    analysisStatus := a.status,
    progress := progressMap a.status,
    paperId := a.paper_id,
    errorMessage := if a.status = .errored then some "Analysis failed" else none }

/-- A backend analysis that errored with a concrete message. -/

def erroredRecord : AnalysisRecord :=
  { id := "a1", file_key := "f1", status := .errored, paper_id := none,
    error_message := some "PDF extraction timed out" }

/-! Data and operations for claims C5, C9 and C10: API-to-frontend block
conversion, block grouping, and local-storage persistence. -/

/-- The eleven block-kind discriminator strings of the `BlockKind` enum in
`src/website/src/data/types.ts`. -/

def blockKindValues : List String :=
  ["header", "paragraph", "figure", "table", "equation", "code_block",
   "quote", "callout", "reference", "footnote", "quiz"]

/-- Paper back-reference carried by API blocks (`PaperReference` in
`src/website/src/data/types.ts`). -/

structure PaperReference where
  id : String
  collection : String
deriving DecidableEq, Repr

/-- Common part of an API block (`ApiBaseBlock` in types.ts): Mongo id,
kind discriminator (a string at runtime), paper reference and optional
next-block link.  The kind-specific payload fields are untouched by the
conversion logic under study, which only spreads them through. -/

structure ApiPaperBlock where
  _id : Option String
  kind : String
  paper : PaperReference
  next_block : Option PaperReference
deriving DecidableEq, Repr

/-- Common part of a converted frontend block (`BaseBlock` in types.ts). -/

structure FrontendBlock where
  id : String
  kind : String
  paper_id : String
  index : Nat
deriving DecidableEq, Repr

/-- The id computation `apiBlock._id || \x60block-${index}\x60` of
`convertApiBlockToFrontendBlock`: JavaScript `||` falls back both for a
missing `_id` and for the falsy empty string. -/

def frontendBlockId (oid : Option String) (index : Nat) : String :=
  match oid with
  | some s => if s = "" then "block-" ++ toString index else s
  | none => "block-" ++ toString index

/-- The conversion `convertApiBlockToFrontendBlock` of
`src/website/src/data/types.ts` (lines 230-264): builds the base block,
then switches on the kind, returning the spread of base and payload for
each of the eleven kinds and throwing on anything else.  All eleven
branches agree on the base fields modelled here; the throw is an
`Except.error`. -/

def convertApiBlockToFrontendBlock (apiBlock : ApiPaperBlock) (index : Nat) :
    Except String FrontendBlock :=
  let baseBlock : FrontendBlock :=
    { id := frontendBlockId apiBlock._id index,
      kind := apiBlock.kind,
      paper_id := apiBlock.paper.id,
      index := index }
  match apiBlock.kind with
  | "paragraph" => .ok baseBlock
  | "header" => .ok baseBlock
  | "figure" => .ok baseBlock
  | "table" => .ok baseBlock
  | "equation" => .ok baseBlock
  | "code_block" => .ok baseBlock
  | "quote" => .ok baseBlock
  | "callout" => .ok baseBlock
  | "reference" => .ok baseBlock
  | "footnote" => .ok baseBlock
  | "quiz" => .ok baseBlock
  | k => .error ("Unknown block kind: " ++ k)

/-- An API paragraph block whose `_id` is present but empty. -/

def emptyIdApiBlock : ApiPaperBlock :=
  { _id := some "", kind := "paragraph", paper := ⟨"p1", "papers"⟩,
    next_block := none }

/-- Group label of `groupBlocks` (`src/unnamed/part_024`): the string
union "single" | "quiz-group". -/

inductive GroupType where
  | single
  | quizGroup
deriving DecidableEq, Repr

/-- A `BlockGroup` of `src/unnamed/part_024`. -/

structure BlockGroup where
  type : GroupType
  blocks : List FrontendBlock
deriving DecidableEq, Repr

/-- Loop of `groupBlocks` with the running `currentQuizGroup` accumulator:
quiz blocks are pushed onto the accumulator; a non-quiz block first
flushes a non-empty accumulator as a "quiz-group", then is emitted as a
"single" group; a trailing accumulator is flushed at the end. -/

def groupBlocksAux (cur : List FrontendBlock) :
    List FrontendBlock → List BlockGroup
  | [] => if cur.isEmpty then [] else [⟨.quizGroup, cur⟩]
  | b :: rest =>
    if b.kind = "quiz" then groupBlocksAux (cur ++ [b]) rest
    else
      (if cur.isEmpty then [] else [⟨.quizGroup, cur⟩]) ++
        ⟨.single, [b]⟩ :: groupBlocksAux [] rest

/-- The `groupBlocks` function of `src/unnamed/part_024`. -/

def groupBlocks (blocks : List FrontendBlock) : List BlockGroup :=
  groupBlocksAux [] blocks

/-- Stored analysis record of `src/unnamed/part_003` (`StoredAnalysis`). -/

structure StoredAnalysis where
  id : String
  analysisId : String
  paperId : Option String
  fileName : String
  fileSize : String
  uploadDate : String
  status : String
  analysisStatus : Option AnalysisStatus
  progress : Option Nat
  errorMessage : Option String
  lastUpdated : String
deriving DecidableEq, Repr

/-- The `AnalysisStorage.save` method of `src/unnamed/part_003` (lines
37-55) as a pure function of the prior stored list and the current
timestamp: replace in place at the first index with the same id, or
unshift at the front, then keep only the first 50 entries. -/

def AnalysisStorage.save (prior : List StoredAnalysis)
    (analysis : StoredAnalysis) (now : String) : List StoredAnalysis :=
  let updated := { analysis with lastUpdated := now }
  let analyses :=
    match prior.findIdx? (fun a => a.id == analysis.id) with
    | some i => prior.set i updated
    | none => updated :: prior
  analyses.take 50

/-- A minimal stored record with a given id (remaining fields fixed). -/

def mkStored (id : String) : StoredAnalysis :=
  { id := id, analysisId := "", paperId := none, fileName := "f.pdf",
    fileSize := "1.0 MB", uploadDate := "d", status := "analyzing",
    analysisStatus := none, progress := none, errorMessage := none,
    lastUpdated := "t0" }

/-- A stored list of 51 records with ids "0" .. "50": longer than the
cap, as reachable through `AnalysisStorage.import`. -/

def storedList51 : List StoredAnalysis :=
  (List.range 51).map (fun i => mkStored (toString i))

/-! Character-stream machinery for claims C6 and C7: the SSE summary
parser `parseSummaryStream` of `src/unnamed/part_004` (lines 91-130), its
consumer `handleGenerateSummary` in
`src/website/src/components/selection-toolbar.tsx`, and the chat stream
consumer of `handleSendMessage` in
`src/website/src/components/layouts/main-layout.tsx` (lines 644-678).
Chunks are modelled as lists of characters; `TextDecoder` with
`stream: true` reassembles split code points, so byte chunking and
character chunking agree. -/

/-- Whitespace as trimmed by JavaScript `String.prototype.trim` (the
whitespace characters occurring in this protocol). -/

def isWsChar (c : Char) : Bool :=
  c = ' ' || c = '\t' || c = '\n' || c = '\r'

/-- JavaScript `s.trim()` on a character list. -/

def trimChars (s : List Char) : List Char :=
  ((s.dropWhile isWsChar).reverse.dropWhile isWsChar).reverse

/-- JavaScript `s.startsWith(p)`: `hasPref p s` is true when `p` is a
leading run of `s`. -/

def hasPref : List Char → List Char → Bool
  | [], _ => true
  | _ :: _, [] => false
  | p :: ps, c :: cs => p = c && hasPref ps cs

/-- JavaScript `s.includes(p)`. -/

def containsSub (pat : List Char) : List Char → Bool
  | [] => hasPref pat []
  | c :: rest => hasPref pat (c :: rest) || containsSub pat rest

/-- Prepends a character to the first piece of a split result. -/

def consHead (c : Char) : List (List Char) → List (List Char)
  | [] => [[c]]
  | h :: t => (c :: h) :: t

/-- JavaScript `s.split("\n")`. -/

def splitLines : List Char → List (List Char)
  | [] => [[]]
  | c :: rest => if c = '\n' then [] :: splitLines rest else consHead c (splitLines rest)

/-- JavaScript `s.split("\n\n")` (leftmost scan for the two-newline
separator, as used by `parseSummaryStream` to find complete SSE
messages). -/

def splitNN : List Char → List (List Char)
  | [] => [[]]
  | [c] => [[c]]
  | c₁ :: c₂ :: rest =>
    if c₁ = '\n' && c₂ = '\n' then [] :: splitNN rest
    else consHead c₁ (splitNN (c₂ :: rest))

/-- The seven characters of the literal "event: ". -/

def evPref : List Char := ['e', 'v', 'e', 'n', 't', ':', ' ']

/-- The six characters of the literal "data: ". -/

def dataPref : List Char := ['d', 'a', 't', 'a', ':', ' ']

/-- The line scan of `parseSummaryStream` over one SSE message: `event`
takes the last line starting with "event: " (substring from 7, trimmed),
`data` the last line starting with "data: " (substring from 6,
untrimmed); both start out as the empty string. -/

def parseEventData (lines : List (List Char)) : List Char × List Char :=
  lines.foldl (fun acc l =>
    if hasPref evPref l then (trimChars (l.drop 7), acc.2)
    else if hasPref dataPref l then (acc.1, l.drop 6)
    else acc) ([], [])

/-- Processing of one complete SSE message by `parseSummaryStream`:
messages that trim to nothing are skipped, and a pair is yielded exactly
when the scanned event name is non-empty (the `data !== undefined` half
of the guard always holds since `data` starts as ""). -/

def processMessage (m : List Char) : Option (List Char × List Char) :=
  if (trimChars m).isEmpty then none
  else
    let r := parseEventData (splitLines m)
    if r.1.isEmpty then none else some r

/-- The chunk loop of `parseSummaryStream`: each decoded chunk is
appended to the buffer, the buffer is split on "\n\n", the trailing
incomplete piece becomes the new buffer, and every complete message is
processed in order.  When the stream ends, whatever remains in the
buffer is discarded. -/

def parseSSEChunks : List Char → List (List Char) → List (List Char × List Char)
  | _, [] => []
  | buf, c :: cs =>
    let parts := splitNN (buf ++ c)
    parts.dropLast.filterMap processMessage ++
      parseSSEChunks (parts.getLastD []) cs

/-- The generator `parseSummaryStream` of `src/unnamed/part_004`, as the
list of event/data pairs yielded over a chunked stream. -/

def parseSummaryStream (chunks : List (List Char)) : List (List Char × List Char) :=
  parseSSEChunks [] chunks

/-- Event names used by the summary consumer. -/

def startEvent : List Char := ['s', 't', 'a', 'r', 't']

/-- The "chunk" event name. -/

def chunkEvent : List Char := ['c', 'h', 'u', 'n', 'k']

/-- The "completed" event name. -/

def completedEvent : List Char := ['c', 'o', 'm', 'p', 'l', 'e', 't', 'e', 'd']

/-- The summary text accumulated by `handleGenerateSummary` in
`selection-toolbar.tsx` over the yielded pairs: "start" is logged,
"chunk" data is appended, "completed" returns immediately, anything else
is logged. -/

def handleGenerateSummary : List (List Char × List Char) → List Char
  | [] => []
  | (e, d) :: rest =>
    if e = startEvent then handleGenerateSummary rest
    else if e = chunkEvent then d ++ handleGenerateSummary rest
    else if e = completedEvent then []
    else handleGenerateSummary rest

/-- Serialization of one complete SSE message
`event: <name>\ndata: <text>\n\n`. -/

def serializeMsg (m : List Char × List Char) : List Char :=
  evPref ++ m.1 ++ ['\n'] ++ dataPref ++ m.2 ++ ['\n', '\n']

/-- A byte stream that is a concatenation of complete SSE messages. -/

def serializeMessages (msgs : List (List Char × List Char)) : List Char :=
  (msgs.map serializeMsg).flatten

/-- Well-formedness of a message of the claimed shape: the event name
carries no surrounding whitespace and no newline, the data text no
newline (else the message would not have the single-message form). -/

def WfMsg (m : List Char × List Char) : Prop :=
  trimChars m.1 = m.1 ∧ '\n' ∉ m.1 ∧ '\n' ∉ m.2

/-- The chat sentinel data line payload "[DONE]". -/

def doneSentinel : List Char := ['[', 'D', 'O', 'N', 'E', ']']

/-- The control-message filter of `handleSendMessage`: data containing
one of the three status strings, or blank data, is skipped. -/

def isControlData (d : List Char) : Bool :=
  containsSub ("Starting chat response...".toList) d ||
  containsSub ("Starting chat end".toList) d ||
  containsSub ("Chat response completed".toList) d ||
  (trimChars d).isEmpty

/-- The `for (const line of lines)` loop of `handleSendMessage` over one
chunk's lines: non-blank "data: " lines are examined; "[DONE]" breaks
out of this (inner) loop; control messages are skipped; all other data is
appended.  Returns the text appended for this chunk and whether the
sentinel was read. -/

def chatScanLines : List (List Char) → List Char × Bool
  | [] => ([], false)
  | l :: rest =>
    if !(trimChars l).isEmpty && hasPref dataPref l then
      let d := l.drop 6
      if d = doneSentinel then ([], true)
      else if isControlData d then chatScanLines rest
      else
        let r := chatScanLines rest
        (d ++ r.1, r.2)
    else chatScanLines rest

/-- The full read loop of `handleSendMessage`: each chunk is decoded and
split on "\n" independently, and the inner line loop's appends are
accumulated; the `break` on "[DONE]" only leaves the line loop, so the
outer `while` keeps reading and processing subsequent chunks. -/

def handleSendMessageContent (chunks : List (List Char)) : List Char :=
  (chunks.map (fun c => (chatScanLines (splitLines c)).1)).flatten

/-- A chunk consisting of the sentinel data line. -/

def doneChunk : List Char := "data: [DONE]\n".toList

/-- A later chunk carrying a further data line. -/

def moreChunk : List Char := "data: more\n".toList

/-- Whether a character list contains two consecutive newlines (an
occurrence of the SSE message separator). -/

def hasNN : List Char → Bool
  | c₁ :: c₂ :: rest => (c₁ = '\n' && c₂ = '\n') || hasNN (c₂ :: rest)
  | _ => false

/-- Whether a character list starts with a newline. -/

def startNL : List Char → Bool
  | [] => false
  | c :: _ => c = '\n'

/-- Whether a character list ends with a newline. -/

def endNL : List Char → Bool
  | [] => false
  | [c] => c = '\n'
  | _ :: c₂ :: rest => endNL (c₂ :: rest)

/-- No "chunk" event occurs after a "completed" event in the message
list (the protocol ends with "completed"). -/

def noChunkAfterCompleted : List (List Char × List Char) → Bool
  | [] => true
  | m :: rest =>
    (if m.1 = completedEvent then rest.all (fun p => !(p.1 == chunkEvent)) else true) &&
      noChunkAfterCompleted rest

/-- The body of a serialized message: everything before the final
separator. -/

def messageBody (m : List Char × List Char) : List Char :=
  evPref ++ m.1 ++ ['\n'] ++ dataPref ++ m.2

instance (m : List Char × List Char) : Decidable (WfMsg m) := by
  unfold WfMsg
  infer_instance

/-- A concrete summary stream: start, two chunks, completed. -/

def demoMsgs : List (List Char × List Char) :=
  [("start".toList, "x".toList),
   ("chunk".toList, "He".toList),
   ("chunk".toList, "llo".toList),
   ("completed".toList, "done".toList)]

/-- A chunking of the serialized demo stream that splits one "\n\n"
separator across a chunk boundary and cuts another message mid-word. -/

def demoChunks : List (List Char) :=
  ["event: start\ndata: x\n\nevent: chunk\ndata: He\n".toList,
   "\nevent: chunk\ndata: l".toList,
   "lo\n\neve".toList,
   "nt: completed\ndata: done\n\n".toList]

/-! Theorems for claims C1, C2, C3, C4 and C8. -/

/-- C1, counterexample: the two client `AnalysisStatus` definitions are
not equal as sets of values — `blocks_processed` belongs to the second
definition (api.ts lines 245-255) but not to the first (lines 27-35), so
not every definition names the ten section 4.1 values. -/

theorem analysisStatus_defs_differ :
    "blocks_processed" ∈ analysisStatusValuesCurrent ∧
    "blocks_processed" ∉ analysisStatusValuesLegacy ∧
    "generating_quizzes" ∈ analysisStatusValuesCurrent ∧
    "generating_quizzes" ∉ analysisStatusValuesLegacy := by
  decide

/-- C1, amended: the second `AnalysisStatus` definition names exactly the
ten section 4.1 values; the first (legacy) definition names only eight of
them — every value but `blocks_processed` and `generating_quizzes` — so
the two definitions are not equal as sets, the legacy one being a proper
subset. -/

theorem analysisStatus_defs_compared :
    (∀ s ∈ analysisStatusValuesCurrent, s ∈ specStatusNames) ∧
    (∀ s ∈ specStatusNames, s ∈ analysisStatusValuesCurrent) ∧
    (∀ s ∈ analysisStatusValuesLegacy, s ∈ analysisStatusValuesCurrent) ∧
    (∀ s ∈ analysisStatusValuesCurrent,
       s ∈ analysisStatusValuesLegacy ∨
       s = "blocks_processed" ∨ s = "generating_quizzes") := by
  decide

/-- C1, witness for the amended theorem at the value "created". -/

theorem analysisStatus_defs_compared_witness :
    "created" ∈ specStatusNames :=
  analysisStatus_defs_compared.1 "created" (by decide)

/-- C2: both polling paths — the `refetchInterval` callback of
`useAnalysis` and the loop body of `uploadAndAnalyzePaper` — stop exactly
on `completed` or `errored`, and for every other status schedule the next
poll after exactly 2000 milliseconds. -/

theorem polling_stops_exactly_on_terminal :
    ∀ s : AnalysisStatus,
      (refetchInterval s = none ↔ (s = .completed ∨ s = .errored)) ∧
      ((uploadPollDecision s = .stopSuccess ∨ uploadPollDecision s = .stopError) ↔
        (s = .completed ∨ s = .errored)) ∧
      (¬(s = .completed ∨ s = .errored) →
        refetchInterval s = some 2000 ∧ uploadPollDecision s = .continueAfter 2000) := by
  decide

/-- C2, witness: at `created`, polling continues with a 2000 ms interval. -/

theorem polling_stops_exactly_on_terminal_witness :
    refetchInterval .created = some 2000 ∧
    uploadPollDecision .created = .continueAfter 2000 :=
  (polling_stops_exactly_on_terminal .created).2.2 (by decide)

/-- C3, counterexample: a quiz block satisfying the serving invariant
`correct_answer < options.length` whose correct option is the empty
string — the renderer's `|| block.options[0]` fallback is taken, so the
fallback branch is not unreachable for invariant-satisfying blocks. -/

theorem quiz_fallback_reachable :
    ServedQuizInvariant quizEmptyOptionBlock ∧
    fallbackTaken quizEmptyOptionBlock = true ∧
    correctAnswerText quizEmptyOptionBlock = some "A" ∧
    quizEmptyOptionBlock.options[quizEmptyOptionBlock.correct_answer]? = some "" := by
  decide

/-- C3, amended: for every quiz block satisfying the serving invariant,
`options[correct_answer]` is defined (the indexing never yields
`undefined`), and the `|| options[0]` fallback is taken exactly when that
option is the empty string — so the rendered text equals the indexed
option whenever it is non-empty, but the fallback branch is reachable. -/

theorem quiz_correct_answer_indexing (b : QuizBlock)
    (h : ServedQuizInvariant b) :
    b.options[b.correct_answer]?.isSome ∧
    (fallbackTaken b = true ↔ b.options[b.correct_answer]? = some "") ∧
    (fallbackTaken b = false →
      correctAnswerText b = b.options[b.correct_answer]?) := by
  unfold ServedQuizInvariant at h
  refine ⟨by simp [List.getElem?_eq_getElem h], ?_, ?_⟩
  · unfold fallbackTaken
    cases hg : b.options[b.correct_answer]? with
    | none => simp_all
    | some s => simp [hg]
  · intro hf
    unfold fallbackTaken at hf
    cases hg : b.options[b.correct_answer]? with
    | none => simp [hg] at hf
    | some s =>
        simp only [hg, decide_eq_false_iff_not] at hf
        simp [correctAnswerText, jsOrString, hg, hf]

/-- C3, witness for the amended theorem at a concrete valid quiz block. -/

theorem quiz_correct_answer_indexing_witness :
    (quizEmptyOptionBlock.options[quizEmptyOptionBlock.correct_answer]?).isSome :=
  (quiz_correct_answer_indexing quizEmptyOptionBlock (by decide)).1

/-- C4, counterexample: for a backend analysis errored with message
"PDF extraction timed out", the monitor stores the constant message
"Analysis failed" — the surfaced `errorMessage` does not equal the
record's `error_message` (which the `GetAnalysisResponse` type does not
even carry). -/

theorem monitor_error_message_is_constant :
    (monitorUpdates (toGetAnalysisResponse erroredRecord)).errorMessage =
      some "Analysis failed" ∧
    erroredRecord.error_message = some "PDF extraction timed out" ∧
    (monitorUpdates (toGetAnalysisResponse erroredRecord)).errorMessage ≠
      erroredRecord.error_message := by
  decide

/-- C4, amended: whenever polling observes an errored analysis, the
`errorMessage` stored on the `StoredAnalysis` record is the constant
string "Analysis failed", independent of the backend record's literal
`error_message`, which is absent from the client's response type. -/

theorem monitor_error_message_constant (r : AnalysisRecord)
    (h : r.status = .errored) :
    (monitorUpdates (toGetAnalysisResponse r)).errorMessage =
      some "Analysis failed" := by
  simp [monitorUpdates, toGetAnalysisResponse, h]

/-- C4, witness for the amended theorem at the concrete errored record. -/

theorem monitor_error_message_constant_witness :
    (monitorUpdates (toGetAnalysisResponse erroredRecord)).errorMessage =
      some "Analysis failed" :=
  monitor_error_message_constant erroredRecord (by decide)

/-- C8, counterexample: `processing_into_blocks` comes strictly before
`blocks_processed` on the section 4.1 path, yet the legacy progress map
of api.ts lines 186-195 (looked up with `|| 0`) is not increasing there:
it gives 85 then 0, because the legacy map has no `blocks_processed`
entry. -/

theorem progressMap_legacy_not_monotone :
    StrictlyBefore .processing_into_blocks .blocks_processed ∧
    progressLookupLegacy .processing_into_blocks = 85 ∧
    progressLookupLegacy .blocks_processed = 0 ∧
    ¬ progressLookupLegacy .processing_into_blocks <
        progressLookupLegacy .blocks_processed := by
  decide

/-- C8, amended: the ten-entry progress map shared by
`uploadAndAnalyzePaper` (part_004), the second api.ts version and
`monitorAnalysis` is strictly monotone along the section 4.1 forward path
and maps `completed` to 100, so with that map the displayed progress
never decreases under forward transitions; the legacy eight-entry map of
api.ts lines 186-195 violates monotonicity at the two statuses it lacks. -/

theorem progressMap_strictly_monotone :
    (∀ s₁ s₂ : AnalysisStatus, StrictlyBefore s₁ s₂ →
        progressMap s₁ < progressMap s₂) ∧
    progressMap .completed = 100 := by
  decide

/-- C8, witness: `created` is strictly before `completed` and the current
map increases there. -/

theorem progressMap_strictly_monotone_witness :
    progressMap .created < progressMap .completed :=
  progressMap_strictly_monotone.1 .created .completed (by decide)

/-! Theorems for claims C5, C9 and C10. -/

/-- Conversion succeeds with the base fields for each of the eleven
kinds. -/

theorem convertApiBlock_ok_of_known (b : ApiPaperBlock) (i : Nat)
    (h : b.kind ∈ blockKindValues) :
    convertApiBlockToFrontendBlock b i =
      .ok { id := frontendBlockId b._id i, kind := b.kind,
            paper_id := b.paper.id, index := i } := by
  obtain ⟨oid, k, p, nb⟩ := b
  simp only [blockKindValues, List.mem_cons, List.not_mem_nil, or_false] at h
  rcases h with rfl | rfl | rfl | rfl | rfl | rfl | rfl | rfl | rfl | rfl | rfl <;> rfl

/-- C5, counterexample: a paragraph block with a present but empty `_id`
converts to id "block-0", not to its `_id` — JavaScript `||` also falls
back on the falsy empty string, so "id equals the input's _id when
present" fails. -/

theorem convert_empty_id_fallback :
    emptyIdApiBlock._id = some "" ∧
    convertApiBlockToFrontendBlock emptyIdApiBlock 0 =
      .ok { id := "block-0", kind := "paragraph", paper_id := "p1", index := 0 } ∧
    ("block-0" : String) ≠ "" :=
  ⟨rfl, rfl, by decide⟩

/-- C5, amended: for each of the eleven kinds the conversion returns,
without throwing, a block preserving the kind, the given index and the
paper id, whose id is the input's `_id` when present and non-empty and
the string "block-i" when `_id` is absent or empty; for a kind outside
the eleven variants it always throws. -/

theorem convertApiBlock_spec (b : ApiPaperBlock) (i : Nat) :
    (b.kind ∈ blockKindValues →
      ∃ fb, convertApiBlockToFrontendBlock b i = .ok fb ∧
        fb.kind = b.kind ∧ fb.index = i ∧ fb.paper_id = b.paper.id ∧
        (∀ s, b._id = some s → s ≠ "" → fb.id = s) ∧
        ((b._id = none ∨ b._id = some "") → fb.id = "block-" ++ toString i)) ∧
    (b.kind ∉ blockKindValues → ∀ fb, convertApiBlockToFrontendBlock b i ≠ .ok fb) := by
  constructor
  · intro h
    refine ⟨_, convertApiBlock_ok_of_known b i h, rfl, rfl, rfl, ?_, ?_⟩
    · intro s hs hne
      simp [frontendBlockId, hs, hne]
    · rintro (hs | hs) <;> simp [frontendBlockId, hs]
  · intro h fb hok
    apply h
    unfold convertApiBlockToFrontendBlock at hok
    split at hok <;>
      first
        | (rename_i heq; rw [heq]; decide)
        | exact absurd hok (by simp)

/-- C5, witness: the amended theorem applied to the empty-id paragraph
block at index 0. -/

theorem convertApiBlock_spec_witness :
    ∃ fb, convertApiBlockToFrontendBlock emptyIdApiBlock 0 = .ok fb ∧
      fb.kind = emptyIdApiBlock.kind ∧ fb.index = 0 ∧
      fb.paper_id = emptyIdApiBlock.paper.id ∧
      (∀ s, emptyIdApiBlock._id = some s → s ≠ "" → fb.id = s) ∧
      ((emptyIdApiBlock._id = none ∨ emptyIdApiBlock._id = some "") →
        fb.id = "block-" ++ toString 0) :=
  (convertApiBlock_spec emptyIdApiBlock 0).1 (by decide)

/-- Flattening the groups gives back the accumulator followed by the
remaining input. -/

theorem groupBlocksAux_flatten (bs : List FrontendBlock) : ∀ cur,
    ((groupBlocksAux cur bs).map (fun g => g.blocks)).flatten = cur ++ bs := by
  induction bs with
  | nil => intro cur; cases cur <;> simp [groupBlocksAux]
  | cons b rest ih =>
      intro cur
      by_cases hb : b.kind = "quiz"
      · simp [groupBlocksAux, hb, ih]
      · cases cur <;> simp [groupBlocksAux, hb, ih]

/-- Shape of each emitted group, given that the accumulator holds only
quiz blocks. -/

theorem groupBlocksAux_groups (bs : List FrontendBlock) : ∀ cur,
    (∀ x ∈ cur, x.kind = "quiz") →
    ∀ g ∈ groupBlocksAux cur bs,
      (g.type = .single → ∃ b, g.blocks = [b] ∧ b.kind ≠ "quiz") ∧
      (g.type = .quizGroup → g.blocks ≠ [] ∧ ∀ x ∈ g.blocks, x.kind = "quiz") := by
  induction bs with
  | nil =>
      intro cur hcur g hg
      cases cur with
      | nil => simp [groupBlocksAux] at hg
      | cons c cs =>
          simp [groupBlocksAux] at hg
          subst hg
          exact ⟨by simp, fun _ => ⟨by simp, hcur⟩⟩
  | cons b rest ih =>
      intro cur hcur g hg
      by_cases hb : b.kind = "quiz"
      · refine ih (cur ++ [b]) ?_ g (by simpa [groupBlocksAux, hb] using hg)
        intro x hx
        rcases List.mem_append.mp hx with hx | hx
        · exact hcur x hx
        · simp at hx; subst hx; exact hb
      · simp only [groupBlocksAux, hb, if_false] at hg
        rcases List.mem_append.mp hg with hg | hg
        · cases cur with
          | nil => simp at hg
          | cons c cs =>
              simp at hg
              subst hg
              exact ⟨by simp, fun _ => ⟨by simp, hcur⟩⟩
        · rcases List.mem_cons.mp hg with hg | hg
          · subst hg
            exact ⟨fun _ => ⟨b, rfl, hb⟩, by simp⟩
          · exact ih [] (by simp) g hg

/-- Adjacent groups never are two quiz groups: every emitted quiz group
is followed by a single group or ends the list. -/

theorem groupBlocksAux_chain (bs : List FrontendBlock) : ∀ cur,
    List.Chain' (fun g₁ g₂ => g₁.type = .single ∨ g₂.type = .single)
      (groupBlocksAux cur bs) := by
  induction bs with
  | nil => intro cur; cases cur <;> simp [groupBlocksAux]
  | cons b rest ih =>
      intro cur
      by_cases hb : b.kind = "quiz"
      · simpa [groupBlocksAux, hb] using ih (cur ++ [b])
      · simp only [groupBlocksAux, hb, if_false]
        cases cur with
        | nil =>
            simp only [List.isEmpty_nil, if_true, List.nil_append]
            exact List.chain'_cons'.mpr ⟨fun y _ => Or.inl rfl, ih []⟩
        | cons c cs =>
            simp only [List.isEmpty_cons, if_false, List.cons_append, List.nil_append]
            exact List.chain'_cons.mpr ⟨Or.inr rfl,
              List.chain'_cons'.mpr ⟨fun y _ => Or.inl rfl, ih []⟩⟩

/-- C9: concatenating the groups' blocks in group order yields the input
list; every "single" group is exactly one non-quiz block; every
"quiz-group" is a non-empty run of quiz blocks; and no two adjacent
groups are both quiz groups, so each quiz group is a maximal run of
consecutive quiz blocks of the input. -/

theorem groupBlocks_spec (blocks : List FrontendBlock) :
    ((groupBlocks blocks).map (fun g => g.blocks)).flatten = blocks ∧
    (∀ g ∈ groupBlocks blocks, g.type = .single →
        ∃ b, g.blocks = [b] ∧ b.kind ≠ "quiz") ∧
    (∀ g ∈ groupBlocks blocks, g.type = .quizGroup →
        g.blocks ≠ [] ∧ ∀ x ∈ g.blocks, x.kind = "quiz") ∧
    List.Chain' (fun g₁ g₂ => ¬(g₁.type = .quizGroup ∧ g₂.type = .quizGroup))
      (groupBlocks blocks) := by
  refine ⟨by simpa using groupBlocksAux_flatten blocks [],
          fun g hg => (groupBlocksAux_groups blocks [] (by simp) g hg).1,
          fun g hg => (groupBlocksAux_groups blocks [] (by simp) g hg).2,
          ?_⟩
  refine List.Chain'.imp ?_ (groupBlocksAux_chain blocks [])
  rintro g₁ g₂ (h | h) ⟨h₁, h₂⟩ <;> simp_all

/-- C9, witness: in the grouping of a quiz block followed by a paragraph
block, the paragraph's group is a single non-quiz block. -/

theorem groupBlocks_spec_witness :
    ∃ b, (BlockGroup.mk .single [⟨"b1", "paragraph", "p1", 1⟩]).blocks = [b] ∧
      b.kind ≠ "quiz" :=
  (groupBlocks_spec [⟨"b0", "quiz", "p1", 0⟩, ⟨"b1", "paragraph", "p1", 1⟩]).2.1
    ⟨.single, [⟨"b1", "paragraph", "p1", 1⟩]⟩ (by decide) (by decide)

/-- C10, counterexample: on a 51-entry prior list (reachable through
`AnalysisStorage.import`) whose matching id sits at index 50, `save`
replaces in place but then truncates to 50 entries, so the saved entry is
dropped and the length shrinks — "contains an entry with the saved id"
and "length unchanged" both fail. -/

theorem save_drops_entry_on_overfull_list :
    storedList51.length = 51 ∧
    storedList51.findIdx? (fun a => a.id == "50") = some 50 ∧
    (AnalysisStorage.save storedList51 (mkStored "50") "t1").length = 50 ∧
    ∀ x ∈ AnalysisStorage.save storedList51 (mkStored "50") "t1",
      x.id ≠ "50" := by
  decide

/-- C10, amended: after `save` the stored list always has length at most
50; when the prior list has at most 50 entries the stored list contains
an entry with the saved id, an entry with a matching id is replaced in
place with the list length unchanged, and otherwise the new entry is
prepended at the front of the first 49 prior entries.  For longer prior
lists the result is truncated to the first 50 entries, which can drop the
saved entry. -/

theorem save_spec (prior : List StoredAnalysis) (a : StoredAnalysis)
    (now : String) (h : prior.length ≤ 50) :
    (AnalysisStorage.save prior a now).length ≤ 50 ∧
    (∃ x ∈ AnalysisStorage.save prior a now, x.id = a.id) ∧
    (∀ i, prior.findIdx? (fun x => x.id == a.id) = some i →
        AnalysisStorage.save prior a now =
          prior.set i { a with lastUpdated := now } ∧
        (AnalysisStorage.save prior a now).length = prior.length) ∧
    (prior.findIdx? (fun x => x.id == a.id) = none →
        AnalysisStorage.save prior a now =
          { a with lastUpdated := now } :: prior.take 49) := by
  unfold AnalysisStorage.save
  cases hidx : prior.findIdx? (fun x => x.id == a.id) with
  | none =>
      simp only [hidx]
      refine ⟨?_, ?_, ?_, ?_⟩
      · exact List.length_take_le 50 _
      · refine ⟨{ a with lastUpdated := now }, ?_, rfl⟩
        simp [List.take_succ_cons]
      · intro i hi; simp [hidx] at hi
      · intro _; simp [List.take_succ_cons]
  | some i =>
      obtain ⟨hilen, -, -⟩ := List.findIdx?_eq_some_iff_getElem.mp hidx
      have hset : (prior.set i { a with lastUpdated := now }).length ≤ 50 := by
        simpa using h
      simp only [hidx, List.take_of_length_le hset]
      have hi2 : i < (prior.set i { a with lastUpdated := now }).length := by
        simpa using hilen
      refine ⟨by simpa using h, ?_, ?_, ?_⟩
      · refine ⟨{ a with lastUpdated := now }, ?_, rfl⟩
        have hm := List.getElem_mem hi2
        rwa [List.getElem_set_self hi2] at hm
      · intro j hj
        cases hj
        exact ⟨rfl, by simp⟩
      · intro hnone
        simp at hnone

/-- C10, witness: saving a fresh record onto a one-element prior list. -/

theorem save_spec_witness :
    (AnalysisStorage.save [mkStored "1"] (mkStored "2") "t1").length ≤ 50 :=
  (save_spec [mkStored "1"] (mkStored "2") "t1" (by decide)).1

/-- C7: the sentinel is read in the first chunk, yet the data line of the
second chunk is still appended to the assistant message — the `break` on
"[DONE]" leaves only the inner per-chunk line loop, not the outer read
loop, contradicting "never appends any subsequent data line". -/

theorem chat_appends_after_done_sentinel :
    (chatScanLines (splitLines doneChunk)).2 = true ∧
    handleSendMessageContent [doneChunk, moreChunk] = "more".toList ∧
    ("more".toList : List Char) ≠ [] := by
  decide

/-! Structural lemmas about the splitters. -/

theorem consHead_ne_nil (c : Char) (l : List (List Char)) : consHead c l ≠ [] := by
  cases l <;> simp [consHead]

theorem splitNN_ne_nil : ∀ s : List Char, splitNN s ≠ []
  | [] => by simp [splitNN]
  | [c] => by simp [splitNN]
  | c₁ :: c₂ :: rest => by
      by_cases h : c₁ = '\n' ∧ c₂ = '\n'
      · simp [splitNN, h]
      · simp only [splitNN]
        rw [if_neg (by simpa using h)]
        exact consHead_ne_nil _ _

theorem hasNN_cons_false {c : Char} {l : List Char} (h : hasNN (c :: l) = false) :
    hasNN l = false := by
  cases l with
  | nil => rfl
  | cons d ls => simp [hasNN] at h; exact h.2

theorem splitNN_of_not_hasNN : ∀ s : List Char, hasNN s = false → splitNN s = [s]
  | [], _ => rfl
  | [c], _ => rfl
  | c₁ :: c₂ :: rest, h => by
      simp only [hasNN, Bool.or_eq_false_iff] at h
      obtain ⟨h₁, h₂⟩ := h
      simp only [splitNN]
      rw [if_neg (by simpa using h₁)]
      rw [splitNN_of_not_hasNN (c₂ :: rest) h₂]
      rfl

theorem getLastD_irrel {α : Type} (l : List α) (h : l ≠ []) (d₁ d₂ : α) :
    l.getLastD d₁ = l.getLastD d₂ := by
  cases l with
  | nil => exact absurd rfl h
  | cons x t => rfl

theorem getLastD_mem {α : Type} : ∀ (l : List α) (d : α), l ≠ [] → l.getLastD d ∈ l
  | [], _, h => absurd rfl h
  | [x], d, _ => by simp [List.getLastD]
  | x :: y :: u, d, _ => by
      have h2 := getLastD_mem (y :: u) x (by simp)
      simp only [List.getLastD_cons] at h2 ⊢
      exact List.mem_cons_of_mem x h2

/-- Head structure of a split of a non-empty list: the first piece is
empty (a leading separator) or starts with the list's first character. -/

theorem splitNN_head_struct (c : Char) (s : List Char) :
    (splitNN (c :: s)).headD [] = [] ∨
    ∃ t, (splitNN (c :: s)).headD [] = c :: t := by
  cases s with
  | nil => exact Or.inr ⟨[], rfl⟩
  | cons c₂ rest =>
      by_cases h : c = '\n' ∧ c₂ = '\n'
      · simp [splitNN, h]
      · simp only [splitNN]
        rw [if_neg (by simpa using h)]
        rcases hsp : splitNN (c₂ :: rest) with _ | ⟨hd, tl⟩
        · exact absurd hsp (splitNN_ne_nil _)
        · exact Or.inr ⟨hd, by simp [consHead]⟩

/-- Every piece produced by the splitter is free of the separator. -/

theorem splitNN_pieces_noNN : ∀ (s : List Char), ∀ p ∈ splitNN s, hasNN p = false
  | [], p, hp => by simp [splitNN] at hp; simp [hp, hasNN]
  | [c], p, hp => by simp [splitNN] at hp; simp [hp, hasNN]
  | c₁ :: c₂ :: rest, p, hp => by
      by_cases h : c₁ = '\n' ∧ c₂ = '\n'
      · simp only [splitNN] at hp
        rw [if_pos (by simpa using h)] at hp
        rcases List.mem_cons.mp hp with rfl | hp
        · rfl
        · exact splitNN_pieces_noNN rest p hp
      · simp only [splitNN] at hp
        rw [if_neg (by simpa using h)] at hp
        rcases hsp : splitNN (c₂ :: rest) with _ | ⟨hd, tl⟩
        · exact absurd hsp (splitNN_ne_nil _)
        · rw [hsp] at hp
          simp only [consHead] at hp
          rcases List.mem_cons.mp hp with rfl | hp
          · have hhd : hasNN hd = false :=
              splitNN_pieces_noNN (c₂ :: rest) hd (by rw [hsp]; exact List.mem_cons_self _ _)
            have hstruct : hd = [] ∨ ∃ t, hd = c₂ :: t := by
              rcases splitNN_head_struct c₂ rest with hh | ⟨t, ht⟩
              · rw [hsp] at hh; simp at hh; exact Or.inl hh
              · rw [hsp] at ht; simp at ht; exact Or.inr ⟨t, ht⟩
            rcases hstruct with rfl | ⟨t, rfl⟩
            · simp [hasNN]
            · simp only [hasNN, Bool.or_eq_false_iff]
              exact ⟨by simpa using h, hhd⟩
          · exact splitNN_pieces_noNN (c₂ :: rest) p (by rw [hsp]; exact List.mem_cons_of_mem _ hp)

/-- The trailing buffer piece after a split never contains a separator. -/

theorem splitNN_getLastD_noNN (s : List Char) :
    hasNN ((splitNN s).getLastD []) = false :=
  splitNN_pieces_noNN s _ (getLastD_mem _ _ (splitNN_ne_nil s))

/-- One scan step: when the first character does not open a separator,
splitting a cons is consing onto the first piece. -/

theorem splitNN_cons_of_not_sep (c : Char) (s : List Char)
    (h : c ≠ '\n' ∨ startNL s = false) :
    splitNN (c :: s) = consHead c (splitNN s) := by
  cases s with
  | nil => rfl
  | cons c₂ rest =>
      have hns : ¬(c = '\n' ∧ c₂ = '\n') := by
        rcases h with h | h
        · exact fun hc => h hc.1
        · simp only [startNL, decide_eq_false_iff_not] at h
          exact fun hc => h hc.2
      simp only [splitNN]
      rw [if_neg (by simpa using hns)]

/-- A split never collapses a non-empty input to the single empty
piece. -/

theorem splitNN_eq_singleton_empty : ∀ s : List Char, splitNN s = [[]] → s = []
  | [], _ => rfl
  | [c], h => by simp [splitNN] at h
  | c₁ :: c₂ :: rest, h => by
      by_cases hb : c₁ = '\n' ∧ c₂ = '\n'
      · simp only [splitNN] at h
        rw [if_pos (by simpa using hb)] at h
        simp only [List.cons.injEq] at h
        exact absurd h.2 (splitNN_ne_nil rest)
      · simp only [splitNN] at h
        rw [if_neg (by simpa using hb)] at h
        rcases hsp : splitNN (c₂ :: rest) with _ | ⟨hd, tl⟩
        · exact absurd hsp (splitNN_ne_nil _)
        · rw [hsp] at h
          simp [consHead] at h

/-- Partition independence of the splitter: splitting a concatenation
first emits the complete pieces of the left part, then rescans its
trailing piece together with the right part. -/

theorem splitNN_append : ∀ (a b : List Char),
    splitNN (a ++ b) =
      (splitNN a).dropLast ++ splitNN ((splitNN a).getLastD [] ++ b)
  | [], b => by simp [splitNN, List.getLastD]
  | [c], b => by simp [splitNN, List.getLastD]
  | c₁ :: c₂ :: rest, b => by
      by_cases h : c₁ = '\n' ∧ c₂ = '\n'
      · have hra := splitNN_append rest b
        have hne := splitNN_ne_nil rest
        simp only [List.cons_append, splitNN]
        rw [if_pos (by simpa using h), if_pos (by simpa using h)]
        rw [List.dropLast_cons_of_ne_nil hne, List.getLastD_cons]
        simp only [List.append_eq]
        rw [hra]
        simp [List.cons_append]
      · have hra := splitNN_append (c₂ :: rest) b
        rcases hsp : splitNN (c₂ :: rest) with _ | ⟨hd, tl⟩
        · exact absurd hsp (splitNN_ne_nil _)
        · have hlhs : splitNN ((c₁ :: c₂ :: rest) ++ b) =
              consHead c₁ (splitNN ((c₂ :: rest) ++ b)) := by
            simp only [List.cons_append, splitNN]
            rw [if_neg (by simpa using h)]
            simp [List.append_eq]
          have hrhs : splitNN (c₁ :: c₂ :: rest) = consHead c₁ (hd :: tl) := by
            simp only [splitNN]
            rw [if_neg (by simpa using h), hsp]
          cases tl with
          | nil =>
              have hhdne : hd ≠ [] := by
                intro hcontra
                subst hcontra
                exact absurd (splitNN_eq_singleton_empty _ hsp) (by simp)
              obtain ⟨x, t, rfl⟩ : ∃ x t, hd = x :: t := by
                cases hd with
                | nil => exact absurd rfl hhdne
                | cons x t => exact ⟨x, t, rfl⟩
              have hx : x = c₂ := by
                rcases splitNN_head_struct c₂ rest with hh | ⟨t', ht'⟩
                · rw [hsp] at hh; simp at hh
                · rw [hsp] at ht'; simp at ht'; exact ht'.1
              subst hx
              rw [hlhs, hra, hsp, hrhs]
              have hch : consHead c₁ [x :: t] = [c₁ :: x :: t] := rfl
              rw [hch]
              simp only [List.dropLast_single, List.getLastD_cons,
                List.getLastD_nil, List.nil_append, List.cons_append]
              have hside : c₁ ≠ '\n' ∨ startNL (x :: (t ++ b)) = false := by
                by_cases hc₁ : c₁ = '\n'
                · right
                  simp only [startNL, decide_eq_false_iff_not]
                  exact fun hc₂ => h ⟨hc₁, hc₂⟩
                · exact Or.inl hc₁
              rw [splitNN_cons_of_not_sep c₁ (x :: (t ++ b)) hside]
          | cons t₀ t₁ =>
              rw [hlhs, hra, hsp, hrhs]
              have hch : consHead c₁ (hd :: t₀ :: t₁) = (c₁ :: hd) :: t₀ :: t₁ := rfl
              rw [hch]
              simp only [List.dropLast_cons₂, List.getLastD_cons]
              rfl

/-! Lemmas about prefixes, trimming and separator-freeness, used to parse
serialized SSE messages. -/

theorem hasPref_self_append : ∀ (p s : List Char), hasPref p (p ++ s) = true
  | [], _ => rfl
  | c :: ps, s => by simp [hasPref, hasPref_self_append ps s]

theorem trimChars_cons_ne_nil {c : Char} (hc : isWsChar c = false)
    (s : List Char) : trimChars (c :: s) ≠ [] := by
  simp only [trimChars]
  rw [List.dropWhile_cons_of_neg (by simp [hc])]
  intro hcontra
  rw [List.reverse_eq_nil_iff, List.dropWhile_eq_nil_iff] at hcontra
  have := hcontra c (by simp)
  simp [hc] at this

theorem splitLines_no_nl : ∀ {s : List Char}, '\n' ∉ s → splitLines s = [s]
  | [], _ => rfl
  | c :: s, h => by
      simp only [List.mem_cons, not_or] at h
      simp only [splitLines]
      rw [if_neg (fun hc => h.1 hc.symm)]
      rw [splitLines_no_nl h.2]
      rfl

theorem splitLines_append_nl : ∀ {x : List Char} (y : List Char), '\n' ∉ x →
    splitLines (x ++ '\n' :: y) = x :: splitLines y
  | [], y, _ => by simp [splitLines]
  | c :: x, y, h => by
      simp only [List.mem_cons, not_or] at h
      simp only [List.cons_append, splitLines]
      rw [if_neg (fun hc => h.1 hc.symm)]
      simp only [List.append_eq]
      rw [splitLines_append_nl y h.2]
      rfl

theorem hasNN_of_no_nl : ∀ {l : List Char}, '\n' ∉ l → hasNN l = false
  | [], _ => rfl
  | [_], _ => rfl
  | c₁ :: c₂ :: rest, h => by
      simp only [List.mem_cons, not_or] at h
      simp only [hasNN, Bool.or_eq_false_iff]
      constructor
      · simp only [Bool.and_eq_false_iff, decide_eq_false_iff_not]
        exact Or.inl (fun hc => h.1 hc.symm)
      · exact hasNN_of_no_nl (by
          simp only [List.mem_cons, not_or]
          exact ⟨h.2.1, h.2.2⟩)

theorem endNL_of_no_nl : ∀ {l : List Char}, '\n' ∉ l → endNL l = false
  | [], _ => rfl
  | [c], h => by
      simp only [List.mem_cons, not_or] at h
      simp only [endNL, decide_eq_false_iff_not]
      exact fun hc => h.1 hc.symm
  | _ :: c₂ :: rest, h => by
      simp only [List.mem_cons, not_or] at h
      simp only [endNL]
      exact endNL_of_no_nl (by
        simp only [List.mem_cons, not_or]
        exact ⟨h.2.1, h.2.2⟩)

theorem hasNN_append : ∀ (x y : List Char),
    hasNN (x ++ y) = (hasNN x || (endNL x && startNL y) || hasNN y)
  | [], y => by simp [hasNN, endNL]
  | [c], y => by
      cases y with
      | nil => simp [hasNN, endNL, startNL]
      | cons d ys => simp [hasNN, endNL, startNL]
  | c₁ :: c₂ :: xs, y => by
      have ih := hasNN_append (c₂ :: xs) y
      simp only [List.cons_append] at ih ⊢
      simp only [hasNN, endNL]
      rw [ih]
      simp [Bool.or_assoc]

/-- Splitting a separator-free body followed by the separator peels off
the body as one complete piece. -/

theorem splitNN_msg_sep : ∀ (body rest : List Char),
    hasNN (body ++ ['\n']) = false →
    splitNN (body ++ '\n' :: '\n' :: rest) = body :: splitNN rest
  | [], rest, _ => by simp [splitNN]
  | [c], rest, h => by
      have hc : c ≠ '\n' := by
        intro hcEq
        subst hcEq
        exact absurd h (by decide)
      simp only [List.cons_append, List.nil_append]
      rw [splitNN_cons_of_not_sep c ('\n' :: '\n' :: rest) (Or.inl hc)]
      simp only [splitNN]
      rw [if_pos (by simp)]
      rfl
  | c₁ :: c₂ :: body', rest, h => by
      have h' : hasNN ((c₂ :: body') ++ ['\n']) = false :=
        hasNN_cons_false (by simpa using h)
      have hcc : ¬(c₁ = '\n' ∧ c₂ = '\n') := by
        simp only [List.cons_append, hasNN, Bool.or_eq_false_iff] at h
        simpa using h.1
      have ih := splitNN_msg_sep (c₂ :: body') rest h'
      simp only [List.cons_append] at ih ⊢
      have hside : c₁ ≠ '\n' ∨ startNL (c₂ :: (body' ++ '\n' :: '\n' :: rest)) = false := by
        by_cases hc₁ : c₁ = '\n'
        · right
          simp only [startNL, decide_eq_false_iff_not]
          exact fun hc₂ => hcc ⟨hc₁, hc₂⟩
        · exact Or.inl hc₁
      rw [splitNN_cons_of_not_sep c₁ _ hside, ih]
      rfl

theorem hasNN_messageBody (m : List Char × List Char)
    (h1 : '\n' ∉ m.1) (h2 : '\n' ∉ m.2) :
    hasNN (messageBody m ++ ['\n']) = false := by
  obtain ⟨n, t⟩ := m
  have hshape : messageBody (n, t) ++ ['\n'] =
      evPref ++ (n ++ (['\n'] ++ (dataPref ++ (t ++ ['\n'])))) := by
    simp [messageBody, List.append_assoc]
  rw [hshape]
  rw [hasNN_append evPref (n ++ (['\n'] ++ (dataPref ++ (t ++ ['\n'])))),
    hasNN_append n (['\n'] ++ (dataPref ++ (t ++ ['\n']))),
    hasNN_append ['\n'] (dataPref ++ (t ++ ['\n'])),
    hasNN_append dataPref (t ++ ['\n']),
    hasNN_append t ['\n']]
  have hSD : startNL (dataPref ++ (t ++ ['\n'])) = false := by
    simp only [dataPref, List.cons_append, startNL]
    decide
  simp [hasNN_of_no_nl h1, hasNN_of_no_nl h2, endNL_of_no_nl h1,
    endNL_of_no_nl h2, hSD, hasNN, endNL, evPref, dataPref, startNL]

theorem splitNN_serializeMessages : ∀ (msgs : List (List Char × List Char)),
    (∀ m ∈ msgs, WfMsg m) →
    splitNN (serializeMessages msgs) = msgs.map messageBody ++ [[]]
  | [], _ => by simp [serializeMessages, splitNN]
  | m :: msgs, hw => by
      have hw1 := hw m (List.mem_cons_self _ _)
      have hbody : hasNN (messageBody m ++ ['\n']) = false :=
        hasNN_messageBody m hw1.2.1 hw1.2.2
      have ih := splitNN_serializeMessages msgs
        (fun m' hm' => hw m' (List.mem_cons_of_mem _ hm'))
      have hser : serializeMessages (m :: msgs) =
          messageBody m ++ '\n' :: '\n' :: serializeMessages msgs := by
        simp [serializeMessages, serializeMsg, messageBody, List.append_assoc]
      rw [hser, splitNN_msg_sep _ _ hbody, ih]
      simp

/-- The chunk loop over any chunking equals the one-shot split of the
concatenated stream, as long as the running buffer is separator-free
(which it always is, being the trailing piece of a split). -/

theorem parseSSEChunks_eq : ∀ (cs : List (List Char)) (buf : List Char),
    hasNN buf = false →
    parseSSEChunks buf cs =
      ((splitNN (buf ++ cs.flatten)).dropLast).filterMap processMessage
  | [], buf, hb => by
      simp [parseSSEChunks, splitNN_of_not_hasNN _ hb]
  | c :: cs, buf, hb => by
      have hrec := parseSSEChunks_eq cs ((splitNN (buf ++ c)).getLastD [])
        (splitNN_getLastD_noNN _)
      simp only [parseSSEChunks]
      rw [hrec]
      have hassoc : buf ++ (c :: cs).flatten = (buf ++ c) ++ cs.flatten := by
        simp [List.flatten_cons, List.append_assoc]
      rw [hassoc, splitNN_append (buf ++ c) cs.flatten]
      rw [List.dropLast_append_of_ne_nil _ (splitNN_ne_nil _)]
      rw [List.filterMap_append]

/-- Processing one well-formed serialized body yields its event/data pair
exactly when the event name is non-empty. -/

theorem processMessage_messageBody (m : List Char × List Char) (hw : WfMsg m) :
    processMessage (messageBody m) = if m.1.isEmpty then none else some m := by
  obtain ⟨n, t⟩ := m
  obtain ⟨htrim, hn, ht⟩ := hw
  have hshape : messageBody (n, t) = (evPref ++ n) ++ '\n' :: (dataPref ++ t) := by
    simp [messageBody, List.append_assoc]
  have hx : '\n' ∉ evPref ++ n := by
    simp only [List.mem_append, not_or]
    exact ⟨by decide, hn⟩
  have hy : '\n' ∉ dataPref ++ t := by
    simp only [List.mem_append, not_or]
    exact ⟨by decide, ht⟩
  have hlines : splitLines (messageBody (n, t)) =
      [evPref ++ n, dataPref ++ t] := by
    rw [hshape, splitLines_append_nl _ hx, splitLines_no_nl hy]
  have hne : trimChars (messageBody (n, t)) ≠ [] := by
    have hcons : messageBody (n, t) =
        'e' :: (['v', 'e', 'n', 't', ':', ' '] ++
          (n ++ (['\n'] ++ (dataPref ++ t)))) := by
      simp [messageBody, evPref]
    rw [hcons]
    exact trimChars_cons_ne_nil (by decide) _
  have hpe₁ : hasPref evPref (evPref ++ n) = true := hasPref_self_append _ _
  have hpe₂ : hasPref evPref (dataPref ++ t) = false := by
    simp only [dataPref, evPref, List.cons_append, hasPref]
    simp [show (decide ('e' = 'd')) = false by decide]
  have hpd₂ : hasPref dataPref (dataPref ++ t) = true := hasPref_self_append _ _
  have hdrop₁ : (evPref ++ n).drop 7 = n :=
    List.drop_left' (by decide)
  have hdrop₂ : (dataPref ++ t).drop 6 = t :=
    List.drop_left' (by decide)
  have hparse : parseEventData (splitLines (messageBody (n, t))) = (n, t) := by
    rw [hlines]
    simp only [parseEventData, List.foldl]
    rw [if_pos hpe₁, if_neg (by simp [hpe₂]), if_pos hpd₂]
    simp [hdrop₁, hdrop₂, htrim]
  simp only [processMessage]
  rw [if_neg (by simpa [List.isEmpty_iff] using hne)]
  rw [hparse]

/-- Filtering-and-processing the bodies keeps exactly the messages with a
non-empty event name. -/

theorem filterMap_processMessage_bodies :
    ∀ (msgs : List (List Char × List Char)), (∀ m ∈ msgs, WfMsg m) →
    (msgs.map messageBody).filterMap processMessage =
      msgs.filter (fun m => !m.1.isEmpty)
  | [], _ => rfl
  | m :: msgs, hw => by
      have hm := processMessage_messageBody m (hw m (List.mem_cons_self _ _))
      have ih := filterMap_processMessage_bodies msgs
        (fun m' hm' => hw m' (List.mem_cons_of_mem _ hm'))
      simp only [List.map_cons, List.filterMap_cons, List.filter_cons]
      by_cases hemp : m.1.isEmpty
      · simp [hm, hemp, ih]
      · simp [hm, hemp, ih]

/-- The summary consumer over the yielded pairs accumulates exactly the
"chunk" data, provided no "chunk" event follows a "completed" event. -/

theorem handleGenerateSummary_filtered :
    ∀ (msgs : List (List Char × List Char)),
    noChunkAfterCompleted msgs = true →
    handleGenerateSummary (msgs.filter (fun m => !m.1.isEmpty)) =
      ((msgs.filter (fun m => m.1 == chunkEvent)).map (fun m => m.2)).flatten
  | [], _ => rfl
  | (e, d) :: msgs, hnc => by
      simp only [noChunkAfterCompleted, Bool.and_eq_true] at hnc
      obtain ⟨hcond, hrest⟩ := hnc
      have ih := handleGenerateSummary_filtered msgs hrest
      by_cases hemp : e.isEmpty
      · have hee : e = [] := by simpa [List.isEmpty_iff] using hemp
        subst hee
        simp only [List.filter_cons]
        simp [ih, show (([] : List Char) == chunkEvent) = false by decide]
      · by_cases hck : e = chunkEvent
        · subst hck
          simp only [List.filter_cons]
          simp only [hemp, Bool.not_false, if_true, beq_self_eq_true,
            List.map_cons, List.flatten_cons]
          rw [handleGenerateSummary]
          rw [if_neg (by decide), if_pos rfl]
          simp [ih]
        · by_cases hcm : e = completedEvent
          · subst hcm
            have hnochunk : msgs.filter (fun m => m.1 == chunkEvent) = [] := by
              rw [List.filter_eq_nil_iff]
              intro m hm
              simp only [if_pos rfl] at hcond
              have := List.all_eq_true.mp hcond m hm
              simpa using this
            simp only [List.filter_cons]
            simp only [hemp, Bool.not_false, if_true]
            rw [handleGenerateSummary]
            rw [if_neg (by decide), if_neg (by decide), if_pos rfl]
            simp [hnochunk, show (completedEvent == chunkEvent) = false by decide]
          · simp only [List.filter_cons]
            simp only [hemp, Bool.not_false, if_true]
            rw [handleGenerateSummary]
            by_cases hst : e = startEvent
            · rw [if_pos hst]
              simp only [ih]
              rw [if_neg (by simpa using hck)]
            · rw [if_neg hst, if_neg hck, if_neg hcm]
              simp only [ih]
              rw [if_neg (by simpa using hck)]

/-- C6: for every byte stream that is a concatenation of complete SSE
messages `event: <name>\ndata: <text>\n\n` (names trim-stable and
newline-free, texts newline-free), `parseSummaryStream` yields exactly
one pair per message with a non-empty event name, in message order,
whatever the partition of the bytes into chunks; consequently, when no
"chunk" event follows "completed", the summary accumulated by the
consumer equals the concatenation of the "chunk" data in order. -/

theorem parseSummaryStream_spec (msgs : List (List Char × List Char))
    (chunks : List (List Char))
    (hw : ∀ m ∈ msgs, WfMsg m)
    (hc : chunks.flatten = serializeMessages msgs) :
    parseSummaryStream chunks = msgs.filter (fun m => !m.1.isEmpty) ∧
    (noChunkAfterCompleted msgs = true →
      handleGenerateSummary (parseSummaryStream chunks) =
        ((msgs.filter (fun m => m.1 == chunkEvent)).map (fun m => m.2)).flatten) := by
  have h1 : parseSummaryStream chunks =
      ((splitNN chunks.flatten).dropLast).filterMap processMessage := by
    have := parseSSEChunks_eq chunks [] rfl
    simpa [parseSummaryStream] using this
  have h2 : parseSummaryStream chunks = msgs.filter (fun m => !m.1.isEmpty) := by
    rw [h1, hc, splitNN_serializeMessages msgs hw, List.dropLast_concat]
    exact filterMap_processMessage_bodies msgs hw
  exact ⟨h2, fun hnc => by rw [h2]; exact handleGenerateSummary_filtered msgs hnc⟩

/-- C6, witness: the theorem applied to the demo stream and the awkward
chunking. -/

theorem parseSummaryStream_spec_witness :
    parseSummaryStream demoChunks = demoMsgs.filter (fun m => !m.1.isEmpty) ∧
    handleGenerateSummary (parseSummaryStream demoChunks) =
      ((demoMsgs.filter (fun m => m.1 == chunkEvent)).map (fun m => m.2)).flatten :=
  ⟨(parseSummaryStream_spec demoMsgs demoChunks (by decide) (by decide)).1,
   (parseSummaryStream_spec demoMsgs demoChunks (by decide) (by decide)).2 (by decide)⟩
